import Mathlib

/-!
Verification of the RSA-CBC cryptographic core.

This file is a shallow embedding of the arithmetic and protocol
functions of src/common/rsa_cbc.cpp and of the per-message handler of
src/server/server.cpp, together with proofs about them.

Modelling conventions:
* boost cpp_int values are embedded as Nat where the source keeps them
  non-negative, and as Int where the source relies on signed values
  (the coefficients of the extended Euclidean algorithm).
* std::string plaintexts are byte lists (List Nat, each entry below 256);
  the cast static_cast of a value to char is modelled as reduction mod 256.
* std::vector of cpp_int is List Nat.
* The C++ while loops of mod_inverse and of the odd-part decomposition are
  encoded with an explicit fuel argument that provably never runs out
  (the tracked remainder strictly decreases); lemmas below restate the
  exact one-step recurrences of the source loops.
* Random sources (boost mt19937_64 draws, Miller-Rabin witness draws) are
  abstracted as explicit streams passed to the functions.
-/

namespace RsaCbc

/-- mod_exp from rsa_cbc.cpp line 31: powm(base, exp, mod), that is
base ^ exp reduced modulo mod. -/
def mod_exp (base exp m : Nat) : Nat := base ^ exp % m

/-- rsa_encrypt from rsa_cbc.cpp line 183: c = m ^ e mod n. -/
def rsa_encrypt (m e n : Nat) : Nat := mod_exp m e n

/-- rsa_decrypt from rsa_cbc.cpp line 191: m = c ^ d mod n. -/
def rsa_decrypt (c d n : Nat) : Nat := mod_exp c d n

/-- The while loop of mod_inverse (rsa_cbc.cpp lines 56-64), state
(t, new_t, r, new_r).  Each iteration computes quotient = r / new_r and
updates (t, new_t) to (new_t, t - quotient * new_t) and (r, new_r) to
(new_r, r - quotient * new_r).  The loop ends when new_r = 0 and the pair
(r, t) is what the remainder of the function inspects.  The fuel argument
only bounds the iteration count; eea_zero and eea_succ below show that
with fuel new_r + 1 the function satisfies exactly the loop recurrence. -/
def eea_loop : Nat → Int → Int → Nat → Nat → Nat × Int
  | 0, t, _, r, _ => (r, t)
  | fuel + 1, t, new_t, r, new_r =>
    if new_r = 0 then (r, t)
    else
      let quotient : Nat := r / new_r
      eea_loop fuel new_t (t - (quotient : Int) * new_t) new_r (r - quotient * new_r)

/-- The mod_inverse loop with the canonical (sufficient) fuel. -/
def eea (t new_t : Int) (r new_r : Nat) : Nat × Int :=
  eea_loop (new_r + 1) t new_t r new_r

/-- mod_inverse from rsa_cbc.cpp lines 52-69: extended Euclidean algorithm
on (phi, e) tracking the coefficient of e.  After the loop, r holds
gcd(phi, e) and t the Bezout coefficient; if r > 1 there is no inverse and
0 is returned, and a negative t is shifted by phi once. -/
def mod_inverse (e phi : Nat) : Int :=
  let p := eea 0 1 phi e
  if 1 < p.1 then 0
  else if p.2 < 0 then p.2 + (phi : Int) else p.2

/-- cbc_encrypt from rsa_cbc.cpp lines 211-222.  prev starts as the iv;
each plaintext byte m is XORed with prev mod 256, RSA-encrypted, and the
cipher block becomes the new prev. -/
def cbc_encrypt : List Nat → Nat → Nat → Nat → List Nat
  | [], _, _, _ => []
  | m :: rest, e, n, prev =>
    let x := m ^^^ (prev % 256)
    let c := rsa_encrypt x e n
    c :: cbc_encrypt rest e n c

/-- cbc_decrypt from rsa_cbc.cpp lines 238-248.  prev starts as the iv;
each cipher block is RSA-decrypted, XORed with prev mod 256, narrowed to a
byte (the static_cast to char, modelled as mod 256), and the cipher block
itself becomes the new prev. -/
def cbc_decrypt : List Nat → Nat → Nat → Nat → List Nat
  | [], _, _, _ => []
  | c :: rest, d, n, prev =>
    (rsa_decrypt c d n ^^^ (prev % 256)) % 256 :: cbc_decrypt rest d n c

/-- The while loop of miller_rabin_test (rsa_cbc.cpp lines 94-97) writing
n - 1 = d * 2 ^ s with d odd: repeatedly halve while even, counting
the halvings.  Fuel m suffices for input m since the value halves at every
step; the claims below only exercise inputs for which the number of
halvings is far below the fuel. -/
def split2 : Nat → Nat → Nat × Nat
  | 0, m => (m, 0)
  | fuel + 1, m =>
    if m % 2 = 0 then
      let p := split2 fuel (m / 2)
      (p.1, p.2 + 1)
    else (m, 0)

/-- The inner witness loop of miller_rabin_test (rsa_cbc.cpp lines
108-114): square x up to s - 1 times looking for n - 1. -/
def mr_inner (n : Nat) : Nat → Nat → Bool
  | _, 0 => false
  | x, r + 1 =>
    let x2 := mod_exp x 2 n
    if x2 = n - 1 then true else mr_inner n x2 r

/-- One round of miller_rabin_test (rsa_cbc.cpp lines 102-116) for a
drawn base a: compute x = a ^ d mod n; the round passes if x is 1 or
n - 1, otherwise the inner squaring loop must find n - 1. -/
def mr_round (n d s a : Nat) : Bool :=
  let x := mod_exp a d n
  if x = 1 ∨ x = n - 1 then true
  else mr_inner n x (s - 1)

/-- The outer for loop of miller_rabin_test: run the given number of
rounds with bases a i drawn from the stream; any failing round returns
false immediately, otherwise the test returns true. -/
def mr_rounds (n d s : Nat) (a : Nat → Nat) : Nat → Nat → Bool
  | _, 0 => true
  | i, cnt + 1 => if mr_round n d s (a i) then mr_rounds n d s a (i + 1) cnt else false

/-- miller_rabin_test from rsa_cbc.cpp lines 88-118.  n and k are signed
in the source (cpp_int and int), so they are embedded as Int.  The random
bases of uniform_int_distribution(2, n - 2) are abstracted as the stream a;
the claims proved below never depend on the drawn values.  The loop bound
for (int i = 0; i < k; ++i) runs k.toNat iterations. -/
def miller_rabin_test (n : Int) (k : Int) (a : Nat → Nat) : Bool :=
  if n ≤ 1 ∨ (n % 2 = 0 ∧ n ≠ 2) then false
  else if n = 2 ∨ n = 3 then true
  else
    let m := (n - 1).toNat
    let p := split2 m m
    mr_rounds n.toNat p.1 p.2 a 0 k.toNat

/-- The accumulation loop of random_number (rsa_cbc.cpp lines 136-138):
shift the accumulator left by 64 and OR in the next 64-bit draw w i. -/
def rn_words (w : Nat → Nat) : Nat → Nat
  | 0 => 0
  | i + 1 => (rn_words w i) <<< 64 ||| w i

/-- random_number from rsa_cbc.cpp lines 132-142: accumulate
(bits + 63) / 64 raw 64-bit draws, mask down to the low bits, then force
the top bit of the window and the lowest bit. -/
def random_number (bits : Nat) (w : Nat → Nat) : Nat :=
  let iterations := (bits + 63) / 64
  let acc := rn_words w iterations
  let masked := acc &&& ((1 <<< bits) - 1)
  masked ||| ((1 <<< (bits - 1)) ||| 1)

/-- generate_prime from rsa_cbc.cpp lines 149-154: keep drawing
random_number candidates until miller_rabin_test accepts one (the source
call passes 10 rounds).  The unbounded while (true) retry loop is
modelled with an explicit trial bound: the i-th candidate uses the word
stream w i and the witness stream a i, and none is returned if no
candidate within the bound passes, where the C++ loop would keep trying. -/
def generate_prime (bits : Nat) (w : Nat → Nat → Nat) (a : Nat → Nat → Nat) :
    Nat → Nat → Option Nat
  | _, 0 => none
  | i, fuel + 1 =>
    let candidate := random_number bits (w i)
    if miller_rabin_test (candidate : Int) 10 (a i) then some candidate
    else generate_prime bits w a (i + 1) fuel

/-- generate_rsa_keys from rsa_cbc.cpp lines 169-177, with the two prime
draws (after the rejection loop that reruns generate_prime while q = p)
abstracted as the parameters p and q: the function computes n = p * q,
phi = (p - 1) * (q - 1), fixes e = 65537 and sets d = mod_inverse(e, phi).
The source performs no check on d before returning. -/
def generate_rsa_keys (p q : Nat) : Nat × Nat × Int :=
  (p * q, 65537, mod_inverse 65537 ((p - 1) * (q - 1)))

/-- Outcome of one pass of the per-message receive loop of the server
(server.cpp lines 178-245): skipped models the continue after printing
the message about an invalid data format; reply models the normal
acknowledgement path; crash models an uncaught exception thrown by the
cpp_int string constructor, which terminates the process so that no
further message is handled. -/
inductive HandlerStep where
  | skipped : HandlerStep
  | reply : List Nat → HandlerStep
  | crash : HandlerStep
deriving DecidableEq

/-- The find call for the first delimiter with the two substr calls
(server.cpp lines 194-201): none when no delimiter occurs in the data. -/
def split_at_delim : List Char → Option (List Char × List Char)
  | [] => none
  | c :: rest =>
    if c = '|' then some ([], rest)
    else
      match split_at_delim rest with
      | none => none
      | some (pre, post) => some (c :: pre, post)

/-- Decimal digit accumulation of the boost cpp_int string constructor;
none on the first character that is not a decimal digit. -/
def parse_digits (acc : Nat) : List Char → Option Nat
  | [] => some acc
  | c :: rest => if c.isDigit then parse_digits (acc * 10 + (c.toNat - 48)) rest else none

/-- The boost cpp_int string constructor as exercised by the wire fields
of this protocol: an optional sign followed by a nonempty run of decimal
digits (the peer emits plain decimal); any other shape throws, modelled
as none. -/
def parse_int : List Char → Option Int
  | [] => none
  | '-' :: rest => if rest = [] then none else (parse_digits 0 rest).map (fun v => -(v : Int))
  | '+' :: rest => if rest = [] then none else (parse_digits 0 rest).map (fun v => (v : Int))
  | s => (parse_digits 0 s).map (fun v => (v : Int))

/-- The getline comma splitter applied to the cipher field (server.cpp
lines 221-227): the segments between commas, with no extra segment after
a trailing comma. -/
def split_commas : List Char → List (List Char)
  | [] => []
  | c :: rest =>
    if c = ',' then [] :: split_commas rest
    else
      match split_commas rest with
      | [] => [[c]]
      | b :: bs => (c :: b) :: bs

/-- Parse the cipher blocks in order; the source skips empty blocks
before constructing cpp_int, and any failing construction throws. -/
def parse_blocks : List (List Char) → Option (List Int)
  | [] => some []
  | b :: bs =>
    match parse_int b with
    | none => none
    | some v => (parse_blocks bs).map (fun vs => v :: vs)

/-- The body of the per-message receive loop of the server (server.cpp
lines 193-245): look for the delimiter and otherwise report and skip the
message; construct the nonce and the cipher blocks, where a failing
construction is an uncaught throw; otherwise decrypt the nonce into the
IV and reply with the CBC decryption of the blocks.  Wire integers are
non-negative in every case the claims exercise, so the parsed values are
consumed through toNat. -/
def handle_message (data : List Char) (d n : Nat) : HandlerStep :=
  match split_at_delim data with
  | none => HandlerStep.skipped
  | some (nonce_str, cipher_str) =>
    match parse_int nonce_str with
    | none => HandlerStep.crash
    | some enc_nonce =>
      let iv := rsa_decrypt enc_nonce.toNat d n
      match parse_blocks ((split_commas cipher_str).filter (fun b => b ≠ [])) with
      | none => HandlerStep.crash
      | some blocks => HandlerStep.reply (cbc_decrypt (blocks.map Int.toNat) d n iv)

/-! Helper lemmas: the extended Euclidean loop of mod_inverse. -/

/-- The fuel argument of eea_loop is irrelevant as long as it exceeds the
tracked remainder new_r, which strictly decreases at every iteration. -/
lemma eea_loop_fuel : ∀ (new_r f f' : Nat) (t new_t : Int) (r : Nat),
    new_r < f → new_r < f' →
    eea_loop f t new_t r new_r = eea_loop f' t new_t r new_r := by
  intro new_r
  induction new_r using Nat.strong_induction_on with
  | _ new_r ih =>
    intro f f' t new_t r hf hf'
    match f, f' with
    | fa + 1, fb + 1 =>
      by_cases h0 : new_r = 0
      · subst h0; simp [eea_loop]
      · simp only [eea_loop, if_neg h0]
        have hmod : r - r / new_r * new_r = r % new_r := by
          have h := Nat.div_add_mod r new_r
          rw [Nat.mul_comm] at h
          omega
        have hlt : r - r / new_r * new_r < new_r := by
          rw [hmod]; exact Nat.mod_lt r (Nat.pos_of_ne_zero h0)
        exact ih _ hlt fa fb new_t _ new_r (by omega) (by omega)

/-- The loop equation of eea at a zero remainder: return (r, t). -/
lemma eea_zero (t new_t : Int) (r : Nat) : eea t new_t r 0 = (r, t) := rfl

/-- The loop equation of eea at a nonzero remainder: exactly the body of
the while loop of mod_inverse. -/
lemma eea_succ (t new_t : Int) (r new_r : Nat) (h : new_r ≠ 0) :
    eea t new_t r new_r =
      eea new_t (t - ((r / new_r : Nat) : Int) * new_t) new_r (r - r / new_r * new_r) := by
  have hmod : r - r / new_r * new_r = r % new_r := by
    have hdm := Nat.div_add_mod r new_r
    rw [Nat.mul_comm] at hdm
    omega
  have hlt : r - r / new_r * new_r < new_r := by
    rw [hmod]; exact Nat.mod_lt r (Nat.pos_of_ne_zero h)
  show eea_loop (new_r + 1) t new_t r new_r = _
  simp only [eea_loop, if_neg h]
  exact eea_loop_fuel _ new_r (r - r / new_r * new_r + 1) new_t _ new_r hlt (by omega)

/-- Absolute value of the coefficient update of the loop, used with the
alternating-sign invariant: when t and u have opposite signs the update
t - q * u has absolute value abs t + q * abs u. -/
lemma natAbs_coeff_update {t u : Int} (h : t * u ≤ 0) (q : Nat) :
    (t - (q : Int) * u).natAbs = t.natAbs + q * u.natAbs := by
  have hq : (0 : Int) ≤ (q : Int) := Int.natCast_nonneg q
  have key : |t - (q : Int) * u| = |t| + (q : Int) * |u| := by
    rcases mul_nonpos_iff.1 h with ⟨ht, hu⟩ | ⟨ht, hu⟩
    · have hqu : (q : Int) * u ≤ 0 := mul_nonpos_of_nonneg_of_nonpos hq hu
      rw [abs_of_nonneg ht, abs_of_nonpos hu, abs_of_nonneg (by linarith)]
      ring
    · have hqu : (0 : Int) ≤ (q : Int) * u := mul_nonneg hq hu
      rw [abs_of_nonpos ht, abs_of_nonneg hu, abs_of_nonpos (by linarith)]
      ring
  have hcast : ((t - (q : Int) * u).natAbs : Int) = ((t.natAbs + q * u.natAbs : Nat) : Int) := by
    rw [← Int.abs_eq_natAbs, key]
    push_cast
    rw [Int.abs_eq_natAbs, Int.abs_eq_natAbs]
  exact_mod_cast hcast

/-- The main loop invariant of the extended Euclidean algorithm run by
mod_inverse on (phi, e0): the returned pair holds gcd(phi, e0) together
with a coefficient t satisfying t * e0 congruent to the gcd modulo phi
and abs t at most phi. -/
lemma eea_invariant (phi e0 : Nat) :
    ∀ (new_r : Nat) (t new_t : Int) (r : Nat),
      1 ≤ r →
      t * (e0 : Int) ≡ (r : Int) [ZMOD (phi : Int)] →
      new_t * (e0 : Int) ≡ (new_r : Int) [ZMOD (phi : Int)] →
      Nat.gcd r new_r = Nat.gcd phi e0 →
      t * new_t ≤ 0 →
      new_t.natAbs * r + t.natAbs * new_r = phi →
      t.natAbs ≤ phi →
      (eea t new_t r new_r).1 = Nat.gcd phi e0 ∧
      (eea t new_t r new_r).2 * (e0 : Int) ≡ (((eea t new_t r new_r).1 : Nat) : Int)
        [ZMOD (phi : Int)] ∧
      (eea t new_t r new_r).2.natAbs ≤ phi := by
  intro new_r
  induction new_r using Nat.strong_induction_on with
  | _ new_r ih =>
    intro t new_t r hr h1 h2 hgcd hsign hsum htb
    by_cases h0 : new_r = 0
    · subst h0
      rw [eea_zero]
      rw [Nat.gcd_zero_right] at hgcd
      exact ⟨hgcd, h1, htb⟩
    · rw [eea_succ t new_t r new_r h0]
      have hq : r / new_r * new_r ≤ r := Nat.div_mul_le_self r new_r
      have hmod : r - r / new_r * new_r = r % new_r := by
        have hdm := Nat.div_add_mod r new_r
        rw [Nat.mul_comm] at hdm
        omega
      have hlt : r - r / new_r * new_r < new_r := by
        rw [hmod]; exact Nat.mod_lt r (Nat.pos_of_ne_zero h0)
      refine ih _ hlt _ _ _ (Nat.pos_of_ne_zero h0) h2 ?_ ?_ ?_ ?_ ?_
      · -- congruence for the updated coefficient
        have hcast : ((r - r / new_r * new_r : Nat) : Int)
            = (r : Int) - ((r / new_r : Nat) : Int) * (new_r : Nat) := by
          push_cast [hq]
          ring
        rw [hcast]
        calc (t - ((r / new_r : Nat) : Int) * new_t) * (e0 : Int)
            = t * e0 - ((r / new_r : Nat) : Int) * (new_t * e0) := by ring
          _ ≡ (r : Int) - ((r / new_r : Nat) : Int) * (new_r : Int) [ZMOD (phi : Int)] :=
            h1.sub (Int.ModEq.mul_left _ h2)
      · -- gcd is preserved
        rw [hmod, Nat.gcd_comm new_r (r % new_r), ← Nat.gcd_rec, Nat.gcd_comm]
        exact hgcd
      · -- signs keep alternating
        have hqz : (0 : Int) ≤ ((r / new_r : Nat) : Int) := Int.natCast_nonneg _
        nlinarith [mul_self_nonneg new_t, mul_nonneg hqz (mul_self_nonneg new_t)]
      · -- the weighted coefficient sum is preserved
        rw [natAbs_coeff_update hsign]
        zify [hq] at hsum ⊢
        linear_combination hsum
      · -- the stored coefficient stays bounded by phi
        calc new_t.natAbs ≤ new_t.natAbs * r := Nat.le_mul_of_pos_right _ hr
          _ ≤ phi := by omega

/-- Unfolding of mod_inverse through the canonical loop. -/
lemma mod_inverse_eq (e phi : Nat) :
    mod_inverse e phi =
      (if 1 < (eea 0 1 phi e).1 then 0
       else if (eea 0 1 phi e).2 < 0 then (eea 0 1 phi e).2 + (phi : Int)
       else (eea 0 1 phi e).2) := rfl

/-- The invariant instantiated at the call site of mod_inverse. -/
lemma eea_initial (e phi : Nat) (hphi : 1 < phi) :
    (eea 0 1 phi e).1 = Nat.gcd phi e ∧
    (eea 0 1 phi e).2 * (e : Int) ≡ (((eea 0 1 phi e).1 : Nat) : Int) [ZMOD (phi : Int)] ∧
    (eea 0 1 phi e).2.natAbs ≤ phi := by
  refine eea_invariant phi e e 0 1 phi (by omega) ?_ ?_ rfl ?_ ?_ ?_
  · show (0 : Int) * e ≡ (phi : Int) [ZMOD (phi : Int)]
    rw [Int.modEq_iff_dvd]
    simp
  · show (1 : Int) * e ≡ (e : Int) [ZMOD (phi : Int)]
    rw [one_mul]
  · simp
  · simp
  · simp

/-- With coprime arguments, mod_inverse returns a value in [0, phi) whose
product with e is 1 modulo phi. -/
lemma mod_inverse_coprime (e phi : Nat) (hphi : 1 < phi) (hco : Nat.gcd e phi = 1) :
    0 ≤ mod_inverse e phi ∧ mod_inverse e phi < (phi : Int) ∧
    ((e : Int) * mod_inverse e phi) % (phi : Int) = 1 := by
  obtain ⟨hg, hcong, hb⟩ := eea_initial e phi hphi
  rw [Nat.gcd_comm] at hg
  rw [hco] at hg
  rw [hg] at hcong
  have hone : ((1 : Nat) : Int) = 1 := rfl
  rw [hone] at hcong
  set u := (eea 0 1 phi e).2 with hu
  have hb' : u.natAbs < phi := by
    rcases Nat.lt_or_ge u.natAbs phi with h | h
    · exact h
    · exfalso
      have heq : u.natAbs = phi := le_antisymm hb h
      have hdvd : (phi : Int) ∣ u := by
        rcases Int.natAbs_eq u with he | he
        · rw [he, heq]
        · rw [he, heq]
          exact Int.dvd_neg.2 dvd_rfl
      have hzero : u * (e : Int) ≡ 0 [ZMOD (phi : Int)] := by
        rw [Int.modEq_iff_dvd]
        simpa using Dvd.dvd.mul_right hdvd (e : Int)
      have h01 : (0 : Int) ≡ 1 [ZMOD (phi : Int)] := hzero.symm.trans hcong
      have h1p : (1 : Int) % (phi : Int) = 1 :=
        Int.emod_eq_of_lt (by omega) (by exact_mod_cast hphi)
      unfold Int.ModEq at h01
      rw [Int.zero_emod, h1p] at h01
      exact absurd h01.symm one_ne_zero
  have h1p : (1 : Int) % (phi : Int) = 1 :=
    Int.emod_eq_of_lt (by omega) (by exact_mod_cast hphi)
  have hfin : ((e : Int) * mod_inverse e phi) % (phi : Int) = 1 ∧
      0 ≤ mod_inverse e phi ∧ mod_inverse e phi < (phi : Int) := by
    rw [mod_inverse_eq, ← hu, if_neg (by omega)]
    by_cases hneg : u < 0
    · rw [if_pos hneg]
      refine ⟨?_, by omega, by omega⟩
      have hc2 : (u + (phi : Int)) * (e : Int) ≡ 1 [ZMOD (phi : Int)] := by
        calc (u + (phi : Int)) * (e : Int) = u * e + (phi : Int) * e := by ring
          _ ≡ u * e + 0 * e [ZMOD (phi : Int)] :=
            Int.ModEq.add_left _ (Int.ModEq.mul_right _ (Int.modEq_iff_dvd.2 (by simp)))
          _ = u * e := by ring
          _ ≡ 1 [ZMOD (phi : Int)] := hcong
      unfold Int.ModEq at hc2
      rw [h1p] at hc2
      rw [mul_comm]
      exact hc2
    · rw [if_neg hneg]
      refine ⟨?_, by omega, by omega⟩
      unfold Int.ModEq at hcong
      rw [h1p] at hcong
      rw [mul_comm]
      exact hcong
  exact ⟨hfin.2.1, hfin.2.2, hfin.1⟩

/-- With non-coprime arguments (and phi above 1), mod_inverse returns the
sentinel 0. -/
lemma mod_inverse_not_coprime (e phi : Nat) (hphi : 1 < phi) (hnc : Nat.gcd e phi ≠ 1) :
    mod_inverse e phi = 0 := by
  obtain ⟨hg, -, -⟩ := eea_initial e phi hphi
  rw [Nat.gcd_comm] at hg
  have hgnz : Nat.gcd e phi ≠ 0 := by
    intro h
    exact absurd (Nat.eq_zero_of_gcd_eq_zero_right h) (by omega)
  rw [mod_inverse_eq, if_pos (by omega)]

/-- Any two inverses of e in [0, phi) agree. -/
lemma inverse_unique {phi e : Nat} (hphi : 1 < phi) {u v : Int}
    (hu : ((e : Int) * u) % (phi : Int) = 1) (hv : ((e : Int) * v) % (phi : Int) = 1)
    (hu0 : 0 ≤ u) (hu1 : u < (phi : Int)) (hv0 : 0 ≤ v) (hv1 : v < (phi : Int)) : v = u := by
  have h1p : (1 : Int) % (phi : Int) = 1 :=
    Int.emod_eq_of_lt (by omega) (by exact_mod_cast hphi)
  have heu : (e : Int) * u ≡ 1 [ZMOD (phi : Int)] := by
    unfold Int.ModEq; rw [hu, h1p]
  have hev : (e : Int) * v ≡ 1 [ZMOD (phi : Int)] := by
    unfold Int.ModEq; rw [hv, h1p]
  have step1 : v * ((e : Int) * u) ≡ v * 1 [ZMOD (phi : Int)] := Int.ModEq.mul_left v heu
  have step2 : ((e : Int) * v) * u ≡ 1 * u [ZMOD (phi : Int)] := Int.ModEq.mul_right u hev
  have hre : v * ((e : Int) * u) = ((e : Int) * v) * u := by ring
  have hvu : v ≡ u [ZMOD (phi : Int)] := by
    calc v = v * 1 := by ring
      _ ≡ v * ((e : Int) * u) [ZMOD (phi : Int)] := step1.symm
      _ = ((e : Int) * v) * u := hre
      _ ≡ 1 * u [ZMOD (phi : Int)] := step2
      _ = u := by ring
  unfold Int.ModEq at hvu
  rwa [Int.emod_eq_of_lt hv0 hv1, Int.emod_eq_of_lt hu0 hu1] at hvu

/-! Helper lemmas: the RSA trapdoor identity. -/

/-- Fermat's little theorem lifted to exponents congruent to 1 modulo
p - 1: such a power fixes every residue modulo the prime p. -/
lemma prime_pow_congr {p : Nat} (hp : p.Prime) {k : Nat} (hk : 1 ≤ k)
    (hdvd : (p - 1) ∣ (k - 1)) (m : Nat) : m ^ k ≡ m [MOD p] := by
  by_cases hpm : p ∣ m
  · have h1 : m ≡ 0 [MOD p] := (Nat.modEq_zero_iff_dvd).2 hpm
    calc m ^ k ≡ 0 ^ k [MOD p] := h1.pow k
      _ = 0 := by rw [zero_pow (by omega)]
      _ ≡ m [MOD p] := h1.symm
  · have hco : Nat.Coprime m p := Nat.coprime_comm.1 ((Nat.Prime.coprime_iff_not_dvd hp).2 hpm)
    have he : m ^ (p - 1) ≡ 1 [MOD p] := by
      have h := Nat.ModEq.pow_totient hco
      rwa [Nat.totient_prime hp] at h
    obtain ⟨j, hj⟩ := hdvd
    have hk' : k = (p - 1) * j + 1 := by omega
    calc m ^ k = (m ^ (p - 1)) ^ j * m := by rw [hk', pow_add, pow_mul, pow_one]
      _ ≡ 1 ^ j * m [MOD p] := (he.pow j).mul_right m
      _ = m := by ring

/-- RSA correctness: with n = p * q a product of two distinct primes and
e * d congruent to 1 modulo (p - 1) * (q - 1), decryption inverts
encryption on every message below n. -/
lemma rsa_roundtrip {p q e d : Nat} (hp : p.Prime) (hq : q.Prime) (hpq : p ≠ q)
    (hed : (e * d) % ((p - 1) * (q - 1)) = 1) {m : Nat} (hm : m < p * q) :
    rsa_decrypt (rsa_encrypt m e (p * q)) d (p * q) = m := by
  have hp2 := hp.two_le
  have hq2 := hq.two_le
  have hphi2 : 2 ≤ (p - 1) * (q - 1) := by
    rcases Nat.lt_or_ge p 3 with h3 | h3
    · have hq3 : 3 ≤ q := by
        rcases Nat.lt_or_ge q 3 with h | h
        · omega
        · exact h
      have hp2' : p - 1 = 1 := by omega
      rw [hp2', one_mul]; omega
    · calc 2 = 2 * 1 := rfl
        _ ≤ (p - 1) * (q - 1) := Nat.mul_le_mul (by omega) (by omega)
  have hed1 : 1 ≤ e * d := by
    rcases Nat.eq_zero_or_pos (e * d) with h | h
    · rw [h] at hed; simp at hed
    · exact h
  have hdvd : ((p - 1) * (q - 1)) ∣ (e * d - 1) := by
    have hmodeq : 1 ≡ e * d [MOD (p - 1) * (q - 1)] := by
      unfold Nat.ModEq
      rw [hed, Nat.mod_eq_of_lt (by omega)]
    exact (Nat.modEq_iff_dvd' hed1).1 hmodeq
  have hdp : (p - 1) ∣ (e * d - 1) := dvd_trans (Dvd.intro _ rfl) hdvd
  have hdq : (q - 1) ∣ (e * d - 1) := dvd_trans (Dvd.intro_left _ rfl) hdvd
  have hcp : m ^ (e * d) ≡ m [MOD p] := prime_pow_congr hp hed1 hdp m
  have hcq : m ^ (e * d) ≡ m [MOD q] := prime_pow_congr hq hed1 hdq m
  have hco : Nat.Coprime p q := (Nat.coprime_primes hp hq).2 hpq
  have hcn : m ^ (e * d) ≡ m [MOD p * q] :=
    (Nat.modEq_and_modEq_iff_modEq_mul hco).1 ⟨hcp, hcq⟩
  show (m ^ e % (p * q)) ^ d % (p * q) = m
  calc (m ^ e % (p * q)) ^ d % (p * q) = (m ^ e) ^ d % (p * q) := by rw [← Nat.pow_mod]
    _ = m ^ (e * d) % (p * q) := by rw [← pow_mul]
    _ = m % (p * q) := hcn
    _ = m := Nat.mod_eq_of_lt hm

/-! Helper lemmas: the CBC chaining construction. -/

/-- XOR of two bytes is a byte. -/
lemma xor_byte_lt {m b : Nat} (hm : m < 256) (hb : b < 256) : m ^^^ b < 256 := by
  have h8 : (256 : Nat) = 2 ^ 8 := by norm_num
  rw [h8] at hm hb ⊢
  exact Nat.xor_lt_two_pow hm hb

/-- CBC round trip for an arbitrary seed of the chain: if RSA inverts on
every byte-sized value, decryption inverts encryption byte by byte. -/
lemma cbc_roundtrip {e d n : Nat}
    (hrt : ∀ x, x < 256 → rsa_decrypt (rsa_encrypt x e n) d n = x) :
    ∀ (P : List Nat) (prev : Nat), (∀ b ∈ P, b < 256) →
      cbc_decrypt (cbc_encrypt P e n prev) d n prev = P := by
  intro P
  induction P with
  | nil => intro prev _; rfl
  | cons m rest ih =>
    intro prev hb
    have hm : m < 256 := hb m (List.mem_cons_self m rest)
    have hx : m ^^^ (prev % 256) < 256 := xor_byte_lt hm (Nat.mod_lt _ (by norm_num))
    simp only [cbc_encrypt, cbc_decrypt]
    rw [hrt _ hx, Nat.xor_assoc, Nat.xor_self, Nat.xor_zero, Nat.mod_eq_of_lt hm,
      ih _ (fun b hbm => hb b (List.mem_cons_of_mem _ hbm))]

/-- Length preservation of cbc_decrypt, for every chain seed. -/
lemma cbc_decrypt_length (cipher : List Nat) (d n : Nat) :
    ∀ prev, (cbc_decrypt cipher d n prev).length = cipher.length := by
  induction cipher with
  | nil => intro prev; rfl
  | cons c rest ih => intro prev; simp only [cbc_decrypt, List.length_cons, ih c]

/-- Positional description of cbc_decrypt: the byte at position j is a
function of the cipher element at j and of the previous cipher element
alone (of the chain seed for j = 0). -/
lemma cbc_decrypt_get? (d n : Nat) :
    ∀ (cipher : List Nat) (prev : Nat) (j : Nat),
      (cbc_decrypt cipher d n prev).get? j = (cipher.get? j).map (fun c =>
        (rsa_decrypt c d n ^^^
          ((if j = 0 then prev else (cipher.get? (j - 1)).getD 0) % 256)) % 256) := by
  intro cipher
  induction cipher with
  | nil => intro prev j; simp [cbc_decrypt]
  | cons c rest ih =>
    intro prev j
    cases j with
    | zero => simp [cbc_decrypt]
    | succ j' =>
      simp only [cbc_decrypt, List.get?_cons_succ]
      rw [ih c j']
      cases j' with
      | zero => simp
      | succ j'' => simp

/-! Helper lemmas: bit manipulation of random_number. -/

/-- An OR is at least its left operand. -/
lemma le_or_left (a b : Nat) : a ≤ a ||| b :=
  Nat.le_of_testBit (fun i h => by simp [Nat.testBit_or, h])

/-- An OR is at least its right operand. -/
lemma le_or_right (a b : Nat) : b ≤ a ||| b :=
  Nat.le_of_testBit (fun i h => by simp [Nat.testBit_or, h])

/-- random_number always lands in the intended window and is odd: the
mask keeps the value below 2 ^ bits, and the final OR forces the top bit
of the window and the lowest bit. -/
lemma random_number_spec (bits : Nat) (hb : 1 ≤ bits) (w : Nat → Nat) :
    2 ^ (bits - 1) ≤ random_number bits w ∧ random_number bits w < 2 ^ bits ∧
      random_number bits w % 2 = 1 := by
  unfold random_number
  have hshift : (1 : Nat) <<< bits = 2 ^ bits := by rw [Nat.shiftLeft_eq, one_mul]
  have hshift1 : (1 : Nat) <<< (bits - 1) = 2 ^ (bits - 1) := by rw [Nat.shiftLeft_eq, one_mul]
  rw [hshift, hshift1]
  set acc := rn_words w ((bits + 63) / 64) with hacc
  have hmask : acc &&& (2 ^ bits - 1) < 2 ^ bits := by
    have h1 : acc &&& (2 ^ bits - 1) ≤ 2 ^ bits - 1 := Nat.and_le_right
    have h2 : 0 < 2 ^ bits := Nat.pos_pow_of_pos bits (by norm_num)
    omega
  refine ⟨?_, ?_, ?_⟩
  · calc 2 ^ (bits - 1) ≤ 2 ^ (bits - 1) ||| 1 := le_or_left _ _
      _ ≤ _ := le_or_right _ _
  · refine Nat.or_lt_two_pow hmask (Nat.or_lt_two_pow ?_ ?_)
    · exact Nat.pow_lt_pow_right (by norm_num) (by omega)
    · exact Nat.one_lt_two_pow (by omega)
  · simp [Nat.or_mod_two_eq_one]

/-- Every value generate_prime returns is a random_number candidate, so
it inherits the window and oddness guarantees. -/
lemma generate_prime_spec (bits : Nat) (hb : 1 ≤ bits) (w a : Nat → Nat → Nat) :
    ∀ (fuel i v : Nat), generate_prime bits w a i fuel = some v →
      2 ^ (bits - 1) ≤ v ∧ v < 2 ^ bits ∧ v % 2 = 1 := by
  intro fuel
  induction fuel with
  | zero => intro i v h; exact absurd h (by simp [generate_prime])
  | succ fuel ih =>
    intro i v h
    simp only [generate_prime] at h
    by_cases hmr : miller_rabin_test ((random_number bits (w i) : Nat) : Int) 10 (a i) = true
    · rw [if_pos hmr] at h
      obtain rfl : random_number bits (w i) = v := Option.some_injective _ h
      exact random_number_spec bits hb (w i)
    · rw [if_neg hmr] at h
      exact ih (i + 1) v h

/-! Helper lemmas: the wire parsing of the server receive loop. -/

/-- Without a delimiter in the data the splitter returns none. -/
lemma split_at_delim_none : ∀ (data : List Char), '|' ∉ data → split_at_delim data = none := by
  intro data
  induction data with
  | nil => intro _; rfl
  | cons c rest ih =>
    intro h
    have hc : ¬ c = '|' := fun hc => h (hc ▸ List.mem_cons_self c rest)
    simp only [split_at_delim, if_neg hc]
    rw [ih (fun hm => h (List.mem_cons_of_mem c hm))]

/-- With the first delimiter made explicit the splitter returns the two
substrings around it. -/
lemma split_at_delim_app : ∀ (pre post : List Char), '|' ∉ pre →
    split_at_delim (pre ++ '|' :: post) = some (pre, post) := by
  intro pre
  induction pre with
  | nil => intro post _; simp [split_at_delim]
  | cons c rest ih =>
    intro post h
    have hc : ¬ c = '|' := fun hc => h (hc ▸ List.mem_cons_self c rest)
    simp only [List.cons_append, split_at_delim, if_neg hc, List.append_eq]
    rw [ih post (fun hm => h (List.mem_cons_of_mem c hm))]

/-! Claim theorems. -/

/-- C1: for every plaintext byte sequence P, every valid key pair
(n = p * q with p, q distinct primes, e = 65537, d the modular inverse of
e mod (p - 1) * (q - 1), n > 255), and every nonce iv in [1, n - 1],
cbc_decrypt(cbc_encrypt(P, e, n, iv), d, n, iv) = P. -/
theorem c1_cbc_round_trip (p q d iv : Nat) (P : List Nat)
    (hp : Nat.Prime p) (hq : Nat.Prime q) (hpq : p ≠ q) (hn : 255 < p * q)
    (hd : (65537 * d) % ((p - 1) * (q - 1)) = 1)
    (hiv1 : 1 ≤ iv) (hiv2 : iv < p * q) (hP : ∀ b ∈ P, b < 256) :
    cbc_decrypt (cbc_encrypt P 65537 (p * q) iv) d (p * q) iv = P :=
  cbc_roundtrip (fun x hx => rsa_roundtrip hp hq hpq hd (lt_of_lt_of_le hx (by omega))) P iv hP

/-- Witness for C1 at p = 17, q = 19, d = 161, iv = 1, P = [72, 105]. -/
theorem c1_cbc_round_trip_witness :
    Nat.Prime 17 ∧ Nat.Prime 19 ∧ (17 : Nat) ≠ 19 ∧ 255 < 17 * 19 ∧
    (65537 * 161) % ((17 - 1) * (19 - 1)) = 1 ∧ (1 : Nat) ≤ 1 ∧ 1 < 17 * 19 ∧
    (∀ b ∈ [72, 105], b < 256) ∧
    cbc_decrypt (cbc_encrypt [72, 105] 65537 (17 * 19) 1) 161 (17 * 19) 1 = [72, 105] :=
  ⟨by decide, by decide, by decide, by decide, by decide, by decide, by decide, by decide,
   c1_cbc_round_trip 17 19 161 1 [72, 105] (by decide) (by decide) (by decide) (by decide)
     (by decide) (by decide) (by decide) (by decide)⟩

/-- C2: for every valid key pair (n = p * q with p, q distinct primes,
d the modular inverse of e modulo (p - 1) * (q - 1)) and every m in
[0, n - 1], rsa_decrypt(rsa_encrypt(m, e, n), d, n) = m. -/
theorem c2_rsa_inverse_law (p q e d m : Nat) (hp : Nat.Prime p) (hq : Nat.Prime q)
    (hpq : p ≠ q) (hd : (e * d) % ((p - 1) * (q - 1)) = 1) (hm : m < p * q) :
    rsa_decrypt (rsa_encrypt m e (p * q)) d (p * q) = m :=
  rsa_roundtrip hp hq hpq hd hm

/-- Witness for C2 at p = 3, q = 5, e = 3, d = 3, m = 7. -/
theorem c2_rsa_inverse_law_witness :
    Nat.Prime 3 ∧ Nat.Prime 5 ∧ (3 : Nat) ≠ 5 ∧ (3 * 3) % ((3 - 1) * (5 - 1)) = 1 ∧
    7 < 3 * 5 ∧ rsa_decrypt (rsa_encrypt 7 3 (3 * 5)) 3 (3 * 5) = 7 :=
  ⟨by decide, by decide, by decide, by decide, by decide,
   c2_rsa_inverse_law 3 5 3 3 7 (by decide) (by decide) (by decide) (by decide) (by decide)⟩

/-- C9: for every cipher sequence, every d, every n > 0, and every iv,
cbc_decrypt returns an output whose length equals the number of elements
of the cipher sequence. -/
theorem c9_decrypt_length (cipher : List Nat) (d n iv : Nat) (hn : 0 < n) :
    (cbc_decrypt cipher d n iv).length = cipher.length :=
  cbc_decrypt_length cipher d n iv

/-- Witness for C9 at cipher = [5, 6], d = 1, n = 2, iv = 0. -/
theorem c9_decrypt_length_witness :
    0 < 2 ∧ (cbc_decrypt [5, 6] 1 2 0).length = [5, 6].length :=
  ⟨by decide, c9_decrypt_length [5, 6] 1 2 0 (by decide)⟩

/-- C6: miller_rabin_test is total on its trivial cases: every n below 2
(including negatives) gives false, n = 2 and n = 3 give true, and every
even n above 2 gives false, for every round count and witness stream. -/
theorem c6_mr_trivial_cases :
    (∀ (n k : Int) (a : Nat → Nat), n ≤ 1 → miller_rabin_test n k a = false) ∧
    (∀ (k : Int) (a : Nat → Nat),
      miller_rabin_test 2 k a = true ∧ miller_rabin_test 3 k a = true) ∧
    (∀ (n k : Int) (a : Nat → Nat), 2 < n → n % 2 = 0 → miller_rabin_test n k a = false) := by
  refine ⟨?_, ?_, ?_⟩
  · intro n k a h
    unfold miller_rabin_test
    rw [if_pos (Or.inl h)]
  · intro k a
    constructor
    · unfold miller_rabin_test
      rw [if_neg (by decide), if_pos (by decide)]
    · unfold miller_rabin_test
      rw [if_neg (by decide), if_pos (by decide)]
  · intro n k a h2 heven
    unfold miller_rabin_test
    rw [if_pos (Or.inr ⟨heven, by omega⟩)]

/-- Witness for C6 at n = -5, n = 2, n = 3 and n = 10, with k = 7. -/
theorem c6_mr_trivial_cases_witness :
    (-5 : Int) ≤ 1 ∧ miller_rabin_test (-5) 7 (fun _ => 0) = false ∧
    miller_rabin_test 2 7 (fun _ => 0) = true ∧
    miller_rabin_test 3 7 (fun _ => 0) = true ∧
    (2 : Int) < 10 ∧ (10 : Int) % 2 = 0 ∧ miller_rabin_test 10 7 (fun _ => 0) = false :=
  ⟨by decide, c6_mr_trivial_cases.1 (-5) 7 (fun _ => 0) (by decide),
   (c6_mr_trivial_cases.2.1 7 (fun _ => 0)).1, (c6_mr_trivial_cases.2.1 7 (fun _ => 0)).2,
   by decide, by decide, c6_mr_trivial_cases.2.2 10 7 (fun _ => 0) (by decide) (by decide)⟩

/-- C10: with a non-positive round count the witness loop of
miller_rabin_test runs zero times, so every odd n of at least 5 is
declared probably prime. -/
theorem c10_nonpositive_rounds (n k : Int) (a : Nat → Nat)
    (hk : k ≤ 0) (h5 : 5 ≤ n) (hodd : n % 2 = 1) :
    miller_rabin_test n k a = true := by
  unfold miller_rabin_test
  rw [if_neg (by omega), if_neg (by omega), Int.toNat_of_nonpos hk]
  rfl

/-- Witness for C10 at n = 9 (a composite), k = 0. -/
theorem c10_nonpositive_rounds_witness :
    (0 : Int) ≤ 0 ∧ (5 : Int) ≤ 9 ∧ (9 : Int) % 2 = 1 ∧
    miller_rabin_test 9 0 (fun _ => 0) = true :=
  ⟨by decide, by decide, by decide,
   c10_nonpositive_rounds 9 0 (fun _ => 0) (by decide) (by decide) (by decide)⟩

/-- C3: for every pair of non-negative big integers (e, phi) with
phi > 1: if gcd(e, phi) = 1 then mod_inverse(e, phi) returns the unique
d with 0 ≤ d < phi and (e * d) mod phi = 1; if gcd(e, phi) is not 1 it
returns 0. -/
theorem c3_mod_inverse_correct (e phi : Nat) (hphi : 1 < phi) :
    (Nat.gcd e phi = 1 →
      0 ≤ mod_inverse e phi ∧ mod_inverse e phi < (phi : Int) ∧
      ((e : Int) * mod_inverse e phi) % (phi : Int) = 1 ∧
      ∀ u : Int, 0 ≤ u → u < (phi : Int) → ((e : Int) * u) % (phi : Int) = 1 →
        u = mod_inverse e phi) ∧
    (Nat.gcd e phi ≠ 1 → mod_inverse e phi = 0) := by
  constructor
  · intro hco
    obtain ⟨h0, h1, h2⟩ := mod_inverse_coprime e phi hphi hco
    exact ⟨h0, h1, h2, fun u hu0 hu1 hu2 => inverse_unique hphi h2 hu2 h0 h1 hu0 hu1⟩
  · exact mod_inverse_not_coprime e phi hphi

/-- Witness for C3 at (3, 40) for the coprime branch and at (4, 40) for
the sentinel branch. -/
theorem c3_mod_inverse_correct_witness :
    (1 < 40 ∧ Nat.gcd 3 40 = 1 ∧ 0 ≤ mod_inverse 3 40 ∧
      mod_inverse 3 40 < ((40 : Nat) : Int) ∧
      (((3 : Nat) : Int) * mod_inverse 3 40) % ((40 : Nat) : Int) = 1) ∧
    (Nat.gcd 4 40 ≠ 1 ∧ mod_inverse 4 40 = 0) :=
  ⟨⟨by decide, by decide,
    ((c3_mod_inverse_correct 3 40 (by decide)).1 (by decide)).1,
    ((c3_mod_inverse_correct 3 40 (by decide)).1 (by decide)).2.1,
    ((c3_mod_inverse_correct 3 40 (by decide)).1 (by decide)).2.2.1⟩,
   ⟨by decide, (c3_mod_inverse_correct 4 40 (by decide)).2 (by decide)⟩⟩

/-- C4 evaluated at a failing input: p = 917519 and q = 3 are distinct
primes with 65537 dividing p - 1, so 65537 and phi = (p - 1) * (q - 1)
are not coprime and mod_inverse returns the sentinel 0; generate_rsa_keys
performs no restart and returns the key triple with d = 0, contradicting
the claim that every returned triple has d different from 0. -/
theorem c4_keygen_emits_zero_d :
    Nat.Prime 917519 ∧ Nat.Prime 3 ∧ (917519 : Nat) ≠ 3 ∧
    (65537 : Nat) ∣ (917519 - 1) ∧
    generate_rsa_keys 917519 3 = (917519 * 3, 65537, 0) :=
  ⟨by norm_num, by norm_num, by decide, by decide, by decide⟩

/-- Counterexample to C5 as stated: with the valid key pair
(n = 17 * 19 = 323, e = 65537, d = 161), nonce 1 and plaintext [0, 0],
the cipher sequence is [1, 1]; replacing element 0 by the different
value 2 leaves the decrypted byte at position 0 unchanged (the byte
narrowing folds the changed RSA output 257 back to 0) while the byte at
the other position 1 changes to 3 — the opposite of the claimed
behaviour in both respects. -/
theorem c5_flip_counterexample :
    Nat.Prime 17 ∧ Nat.Prime 19 ∧ (17 : Nat) ≠ 19 ∧ 255 < 17 * 19 ∧
    (65537 * 161) % ((17 - 1) * (19 - 1)) = 1 ∧ 1 ≤ 1 ∧ 1 < 17 * 19 ∧
    cbc_encrypt [0, 0] 65537 (17 * 19) 1 = [1, 1] ∧
    List.set [1, 1] 0 2 = [2, 1] ∧ (2 : Nat) ≠ 1 ∧
    cbc_decrypt [2, 1] 161 (17 * 19) 1 = [0, 3] ∧
    (cbc_decrypt [2, 1] 161 (17 * 19) 1).get? 0 = ([0, 0] : List Nat).get? 0 ∧
    (cbc_decrypt [2, 1] 161 (17 * 19) 1).get? 1 ≠ ([0, 0] : List Nat).get? 1 :=
  ⟨by decide, by decide, by decide, by decide, by decide, by decide, by decide,
   by simp [cbc_encrypt, rsa_encrypt, mod_exp],
   by decide, by decide, by decide, by decide, by decide⟩

/-- C5 amended: replacing the cipher element at position i before
decryption can change the decrypted bytes at positions i and i + 1 only;
every decrypted byte at a position other than i and i + 1 stays equal to
the original plaintext byte. -/
theorem c5_flip_locality (p q d iv c' i j : Nat) (P : List Nat)
    (hp : Nat.Prime p) (hq : Nat.Prime q) (hpq : p ≠ q) (hn : 255 < p * q)
    (hd : (65537 * d) % ((p - 1) * (q - 1)) = 1)
    (hP : ∀ b ∈ P, b < 256)
    (hj : j < P.length) (hji : j ≠ i) (hji1 : j ≠ i + 1) :
    (cbc_decrypt ((cbc_encrypt P 65537 (p * q) iv).set i c') d (p * q) iv).get? j
      = P.get? j := by
  have hround : cbc_decrypt (cbc_encrypt P 65537 (p * q) iv) d (p * q) iv = P :=
    cbc_roundtrip (fun x hx => rsa_roundtrip hp hq hpq hd (lt_of_lt_of_le hx (by omega)))
      P iv hP
  have hset1 : ((cbc_encrypt P 65537 (p * q) iv).set i c').get? j
      = (cbc_encrypt P 65537 (p * q) iv).get? j :=
    List.get?_set_ne c' _ (by omega)
  have hset2 : ((cbc_encrypt P 65537 (p * q) iv).set i c').get? (j - 1)
      = (cbc_encrypt P 65537 (p * q) iv).get? (j - 1) :=
    List.get?_set_ne c' _ (by omega)
  rw [cbc_decrypt_get?, hset1, hset2, ← cbc_decrypt_get?, hround]

/-- Witness for C5 amended at p = 17, q = 19, d = 161, iv = 1,
P = [0, 0, 0], with element 0 replaced by 2 and position 2 inspected. -/
theorem c5_flip_locality_witness :
    Nat.Prime 17 ∧ Nat.Prime 19 ∧ (17 : Nat) ≠ 19 ∧ 255 < 17 * 19 ∧
    (65537 * 161) % ((17 - 1) * (19 - 1)) = 1 ∧
    (∀ b ∈ [0, 0, 0], b < 256) ∧ 2 < ([0, 0, 0] : List Nat).length ∧
    (2 : Nat) ≠ 0 ∧ (2 : Nat) ≠ 0 + 1 ∧
    (cbc_decrypt ((cbc_encrypt [0, 0, 0] 65537 (17 * 19) 1).set 0 2) 161 (17 * 19) 1).get? 2
      = ([0, 0, 0] : List Nat).get? 2 :=
  ⟨by decide, by decide, by decide, by decide, by decide, by decide, by decide,
   by decide, by decide,
   c5_flip_locality 17 19 161 1 2 0 2 [0, 0, 0] (by decide) (by decide) (by decide)
     (by decide) (by decide) (by decide) (by decide) (by decide) (by decide)⟩

/-- C7: for every bits above 1 and every random stream, every candidate
random_number(bits) produces, and hence every value generate_prime(bits)
returns, lies in [2 ^ (bits - 1), 2 ^ bits) and is odd. -/
theorem c7_bit_length (bits : Nat) (hb : 1 < bits) :
    (∀ w : Nat → Nat, 2 ^ (bits - 1) ≤ random_number bits w ∧
      random_number bits w < 2 ^ bits ∧ random_number bits w % 2 = 1) ∧
    (∀ (w a : Nat → Nat → Nat) (i fuel v : Nat),
      generate_prime bits w a i fuel = some v →
      2 ^ (bits - 1) ≤ v ∧ v < 2 ^ bits ∧ v % 2 = 1) :=
  ⟨fun w => random_number_spec bits (by omega) w,
   fun w a i fuel v h => generate_prime_spec bits (by omega) w a fuel i v h⟩

/-- Witness for C7 at bits = 8 and the all-zero word stream, whose
candidate evaluates to 129. -/
theorem c7_bit_length_witness :
    1 < 8 ∧ 2 ^ (8 - 1) ≤ random_number 8 (fun _ => 0) ∧
    random_number 8 (fun _ => 0) < 2 ^ 8 ∧ random_number 8 (fun _ => 0) % 2 = 1 :=
  ⟨by decide, ((c7_bit_length 8 (by decide)).1 (fun _ => 0)).1,
   ((c7_bit_length 8 (by decide)).1 (fun _ => 0)).2.1,
   ((c7_bit_length 8 (by decide)).1 (fun _ => 0)).2.2⟩

/-- Counterexample to C8 as stated: the payload abc|1 has the delimiter
and an unparsable nonce field; the handler does not recover and continue
but crashes (the cpp_int constructor throw is never caught). -/
theorem c8_crash_counterexample :
    handle_message (['a', 'b', 'c', '|', '1'] : List Char) 3 15 = HandlerStep.crash ∧
    HandlerStep.crash ≠ HandlerStep.skipped :=
  ⟨by decide, by decide⟩

/-- C8 amended: the per-message handler recovers locally only for
payloads missing the delimiter, which are reported and skipped while the
receive loop continues; a payload containing the delimiter whose nonce
field does not parse as an integer makes the handler crash instead of
dropping the message. -/
theorem c8_malformed_handling (data : List Char) (d n : Nat) :
    ('|' ∉ data → handle_message data d n = HandlerStep.skipped) ∧
    (∀ pre post, data = pre ++ '|' :: post → '|' ∉ pre → parse_int pre = none →
      handle_message data d n = HandlerStep.crash) := by
  constructor
  · intro h
    unfold handle_message
    rw [split_at_delim_none data h]
  · intro pre post hdata hpre hparse
    subst hdata
    simp only [handle_message, split_at_delim_app pre post hpre, hparse]

/-- Witness for C8 amended at the delimiter-free payload garbage and at
the payload abc|1 with an unparsable nonce field. -/
theorem c8_malformed_handling_witness :
    ('|' ∉ (['g', 'a', 'r', 'b', 'a', 'g', 'e'] : List Char)) ∧
    handle_message ['g', 'a', 'r', 'b', 'a', 'g', 'e'] 3 15 = HandlerStep.skipped ∧
    (['a', 'b', 'c', '|', '1'] : List Char) = ['a', 'b', 'c'] ++ '|' :: ['1'] ∧
    ('|' ∉ (['a', 'b', 'c'] : List Char)) ∧ parse_int ['a', 'b', 'c'] = none ∧
    handle_message ['a', 'b', 'c', '|', '1'] 3 15 = HandlerStep.crash :=
  ⟨by decide, (c8_malformed_handling ['g', 'a', 'r', 'b', 'a', 'g', 'e'] 3 15).1 (by decide),
   by decide, by decide, by decide,
   (c8_malformed_handling ['a', 'b', 'c', '|', '1'] 3 15).2 ['a', 'b', 'c'] ['1']
     (by decide) (by decide) (by decide)⟩

end RsaCbc
